import Mathlib

/-
Verification development for obsidian_note_chat.py.

Text is modelled as List Char.  The Python string operations used by the
program (str.strip, str.split with a substring separator, str.replace,
str.join) are embedded as executable functions below, with the same
left-to-right non-overlapping matching semantics as CPython.  Whitespace
is modelled over the ASCII range stripped by str.strip.
-/

set_option maxHeartbeats 1000000

namespace NoteChat

/-- Whitespace predicate matching the characters removed by str.strip. -/
def isSpaceB (c : Char) : Bool :=
  c == ' ' || c == '\t' || c == '\n' || c == '\r' || c == '\x0b' || c == '\x0c'

/-- Remove trailing whitespace. -/
def dropTrailingWs (s : List Char) : List Char :=
  (s.reverse.dropWhile isSpaceB).reverse

/-- Embedding of Python str.strip (no arguments). -/
def pyStrip (s : List Char) : List Char :=
  dropTrailingWs (s.dropWhile isSpaceB)

/-- Push a character onto the first segment of a segment list. -/
def consHead (c : Char) (ls : List (List Char)) : List (List Char) :=
  match ls with
  | [] => [[c]]
  | t :: ts => (c :: t) :: ts

/-- Fuel-driven worker for pySplit; fuel is always at least the length of
the scanned text, so the fuel-exhausted arm is never reached in pySplit. -/
def pySplitF (sep : List Char) : Nat → List Char → List (List Char)
  | _, [] => [[]]
  | 0, s => [s]
  | Nat.succ k, c :: cs =>
    if sep ≠ [] ∧ sep.isPrefixOf (c :: cs) then
      [] :: pySplitF sep k (cs.drop (sep.length - 1))
    else
      consHead c (pySplitF sep k cs)

/-- Embedding of Python str.split(sep) for a nonempty separator:
leftmost non-overlapping matches, keeping empty segments. -/
def pySplit (sep s : List Char) : List (List Char) :=
  pySplitF sep s.length s

/-- Fuel-driven worker for pyReplaceAll. -/
def pyReplaceAllF (pat repl : List Char) : Nat → List Char → List Char
  | _, [] => []
  | 0, s => s
  | Nat.succ k, c :: cs =>
    if pat ≠ [] ∧ pat.isPrefixOf (c :: cs) then
      repl ++ pyReplaceAllF pat repl k (cs.drop (pat.length - 1))
    else
      c :: pyReplaceAllF pat repl k cs

/-- Embedding of Python str.replace(pat, repl): replaces every leftmost
non-overlapping occurrence in a single scan of the original string. -/
def pyReplaceAll (pat repl s : List Char) : List Char :=
  pyReplaceAllF pat repl s.length s

/-- Fuel-driven worker for countOcc. -/
def countOccF (pat : List Char) : Nat → List Char → Nat
  | _, [] => 0
  | 0, _ => 0
  | Nat.succ k, c :: cs =>
    if pat ≠ [] ∧ pat.isPrefixOf (c :: cs) then
      1 + countOccF pat k (cs.drop (pat.length - 1))
    else
      countOccF pat k cs

/-- Number of leftmost non-overlapping occurrences of pat in s. -/
def countOcc (pat s : List Char) : Nat :=
  countOccF pat s.length s

/-- Remove exactly the first occurrence of pat from s (specification
function used to compare against the replace-all behaviour of the code). -/
def removeFirst (pat : List Char) : List Char → List Char
  | [] => []
  | c :: cs =>
    if pat ≠ [] ∧ pat.isPrefixOf (c :: cs) then
      cs.drop (pat.length - 1)
    else
      c :: removeFirst pat cs

/-- No occurrence of pat begins at any position strictly inside s, even one
that would extend into the fixed continuation t. -/
def cleanBefore (pat s t : List Char) : Prop :=
  ∀ i, i < s.length → pat.isPrefixOf (s.drop i ++ t) = false

instance (pat s t : List Char) : Decidable (cleanBefore pat s t) :=
  decidable_of_iff (∀ i, i < s.length → pat.isPrefixOf (s.drop i ++ t) = false) Iff.rfl

/-- Turn roles, derived positionally by the parser. -/
inductive Role where
  | user : Role
  | assistant : Role
deriving DecidableEq

/-- One transcript turn. -/
structure Msg where
  role : Role
  content : List Char
deriving DecidableEq

/-- The control-marker tokens cc, c0 .. c7. -/
def controlMarkers : List (List Char) :=
  [['c','c'], ['c','0'], ['c','1'], ['c','2'], ['c','3'], ['c','4'],
   ['c','5'], ['c','6'], ['c','7']]

/-- Embedding of filter_messages: keep a turn unless its stripped content
is exactly a control-marker token. -/
def filter_messages (msgs : List Msg) : List Msg :=
  msgs.filter (fun m => !(controlMarkers.contains (pyStrip m.content)))

/-- The block delimiter substring. -/
def delim : List Char := ['-','-','-']

/-- Role assigned to the block at (pre-drop) index i. -/
def roleAt (i : Nat) : Role :=
  if i % 2 == 0 then Role.user else Role.assistant

/-- The enumerate loop of parse_markdown_file: blocks that are empty after
stripping are dropped; the role comes from the original block index. -/
def parseBlocksFrom (i : Nat) : List (List Char) → List Msg
  | [] => []
  | b :: rest =>
    if (pyStrip b).isEmpty then
      parseBlocksFrom (i + 1) rest
    else
      Msg.mk (roleAt i) (pyStrip b) :: parseBlocksFrom (i + 1) rest

/-- Embedding of parse_markdown_file on successfully read content. -/
def parse_markdown_file (content : List Char) : List Msg :=
  let blocks := pySplit delim content
  if blocks.length == 1 then
    [Msg.mk Role.user (pyStrip content)]
  else
    parseBlocksFrom 0 blocks

abbrev newline : List Char := ['\n']

def callingHead : List Char :=
  ['\n','\n','-','-','-','\n','\n','C','a','l','l','i','n','g',' ']

def dots : List Char := ['.','.','.']

/-- The in-flight marker text that resolveSuccess and resolveFailure
remove by text match. -/
def marker (model : List Char) : List Char :=
  callingHead ++ model ++ dots

/-- The placeholder block appended by the insert rewrite. -/
def callingBlock (model : List Char) : List Char :=
  marker model ++ ['\n']

def blockSep : List Char := ['\n','\n','-','-','-','\n','\n']

/-- The trailing block appended on success. -/
def responseBlock (resp : List Char) : List Char :=
  blockSep ++ resp ++ blockSep

def errorHead : List Char :=
  ['\n','\n','-','-','-','\n','\n','E','r','r','o','r',':',' ']

/-- The trailing block appended on failure. -/
def errorBlock (err : List Char) : List Char :=
  errorHead ++ err ++ blockSep

/-- An error block after the trailing whitespace of the file has been
stripped by a later rewrite. -/
def errorBlockTrimmed (err : List Char) : List Char :=
  errorHead ++ err ++ ['\n','\n','-','-','-']

/-- The text of the placeholder line without its surrounding framing. -/
def callingLine (model : List Char) : List Char :=
  ['C','a','l','l','i','n','g',' '] ++ model ++ dots

/-- The lines of the stripped file content that survive the raw-line
control-marker filter of the insert rewrite. -/
def keptLines (content : List Char) : List (List Char) :=
  (pySplit newline (pyStrip content)).filter
    (fun l => !(controlMarkers.contains (pyStrip l)))

/-- The placeholder-insert rewrite: strip the whole content, drop the raw
lines that are exactly a control marker, join back, append the placeholder. -/
def insertPlaceholder (model content : List Char) : List Char :=
  let ls := pySplit newline (pyStrip content)
  let kept := ls.filter (fun l => !(controlMarkers.contains (pyStrip l)))
  List.intercalate newline kept ++ callingBlock model

/-- The success-path rewrite: strip, replace every occurrence of the
marker with nothing, append the framed response block. -/
def resolveSuccess (model resp content : List Char) : List Char :=
  pyReplaceAll (marker model) [] (pyStrip content) ++ responseBlock resp

/-- The failure-path rewrite: strip, replace every occurrence of the
marker with nothing, append the framed error block. -/
def resolveFailure (model err content : List Char) : List Char :=
  pyReplaceAll (marker model) [] (pyStrip content) ++ errorBlock err

def defaultModel : List Char :=
  ['c','l','a','u','d','e','-','3','-','7','-','s','o','n','n','e','t',
   '-','l','a','t','e','s','t']

/-- The model-defaulting check at the top of process_markdown; a missing
or empty model argument falls back to the default literal. -/
def pmModel (m : Option (List Char)) : List Char :=
  match m with
  | none => defaultModel
  | some s => if s.isEmpty then defaultModel else s

/-- Result of one driver run: the final file state, the returned value
(none models the Python None return), and the number of whole-file
rewrite operations performed. -/
structure DriverResult where
  file : Option (List Char)
  ret : Option (List Char)
  rewrites : Nat
deriving DecidableEq

/-- Embedding of process_markdown.  The file is none when it cannot be
read; the external chat client is a function from the filtered turns to
either a response or an error, matching the try/except at the call site.
The function is total: a client error is caught and resolved into the
file, never re-raised. -/
def process_markdown (file : Option (List Char)) (modelArg : Option (List Char))
    (send : List Msg → Except (List Char) (List Char)) : DriverResult :=
  match file with
  | none => DriverResult.mk none none 0
  | some content =>
    let msgs := filter_messages (parse_markdown_file content)
    let model := pmModel modelArg
    let marked := insertPlaceholder model content
    match send msgs with
    | Except.ok resp =>
      DriverResult.mk (some (resolveSuccess model resp marked)) (some resp) 2
    | Except.error e =>
      DriverResult.mk (some (resolveFailure model e marked)) none 2

/-- Observable outcome of main: exit code if sys.exit was called, whether
the success line was printed, whether an error was logged, the final file
state and the rewrite count. -/
structure MainOut where
  exitCode : Option Nat
  printedSuccess : Bool
  loggedError : Bool
  file : Option (List Char)
  rewrites : Nat
deriving DecidableEq

/-- Python truthiness of the optional response string: None and the empty
string are falsy. -/
def truthy (r : Option (List Char)) : Bool :=
  match r with
  | none => false
  | some s => !s.isEmpty

/-- Embedding of main: argv includes the script name, as sys.argv does. -/
def mainRun (argv : List (List Char)) (file : Option (List Char))
    (send : List Msg → Except (List Char) (List Char)) : MainOut :=
  if argv.length < 2 ∨ 3 < argv.length then
    MainOut.mk (some 1) false true file 0
  else
    let modelArg := if argv.length == 3 then some (argv.getD 2 []) else none
    let r := process_markdown file modelArg send
    MainOut.mk none (truthy r.ret) (!(truthy r.ret)) r.file r.rewrites

/-- The role sequence of a parsed transcript alternates user, assistant,
user, ... from the first turn on. -/
def alternatingFromUser (rs : List Role) : Prop :=
  ∀ i (h : i < rs.length), rs.get ⟨i, h⟩ = roleAt i

theorem consHead_ne_nil (c : Char) (ls : List (List Char)) : consHead c ls ≠ [] := by
  cases ls <;> simp [consHead]

theorem pySplitF_mono (sep : List Char) :
    ∀ n m s, s.length ≤ n → s.length ≤ m → pySplitF sep n s = pySplitF sep m s := by
  intro n
  induction n with
  | zero =>
    intro m s hn _
    have : s = [] := List.eq_nil_of_length_eq_zero (Nat.le_zero.mp hn)
    subst this
    cases m <;> rfl
  | succ n ih =>
    intro m s hn hm
    cases s with
    | nil => cases m <;> rfl
    | cons c cs =>
      cases m with
      | zero => simp at hm
      | succ m =>
        simp only [pySplitF]
        by_cases h : sep ≠ [] ∧ sep.isPrefixOf (c :: cs)
        · rw [if_pos h, if_pos h]
          have hlen : (cs.drop (sep.length - 1)).length ≤ cs.length := by
            rw [List.length_drop]; omega
          have hn2 : (cs.drop (sep.length - 1)).length ≤ n := by
            simp only [List.length_cons] at hn; omega
          have hm2 : (cs.drop (sep.length - 1)).length ≤ m := by
            simp only [List.length_cons] at hm; omega
          rw [ih _ _ hn2 hm2]
        · rw [if_neg h, if_neg h]
          have hn2 : cs.length ≤ n := by simp only [List.length_cons] at hn; omega
          have hm2 : cs.length ≤ m := by simp only [List.length_cons] at hm; omega
          rw [ih _ _ hn2 hm2]

theorem pySplitF_fuel (sep : List Char) (n : Nat) (s : List Char) (h : s.length ≤ n) :
    pySplitF sep n s = pySplit sep s :=
  pySplitF_mono sep n s.length s h (Nat.le_refl _)

theorem pySplit_nil (sep : List Char) : pySplit sep [] = [[]] := rfl

theorem pySplit_cons_pos (sep : List Char) (c : Char) (cs : List Char)
    (h : sep ≠ [] ∧ sep.isPrefixOf (c :: cs)) :
    pySplit sep (c :: cs) = [] :: pySplit sep (cs.drop (sep.length - 1)) := by
  have e : pySplit sep (c :: cs) = pySplitF sep (cs.length + 1) (c :: cs) := rfl
  rw [e]
  simp only [pySplitF]
  rw [if_pos h]
  rw [pySplitF_fuel sep cs.length _ (by rw [List.length_drop]; omega)]

theorem pySplit_cons_neg (sep : List Char) (c : Char) (cs : List Char)
    (h : ¬(sep ≠ [] ∧ sep.isPrefixOf (c :: cs))) :
    pySplit sep (c :: cs) = consHead c (pySplit sep cs) := by
  have e : pySplit sep (c :: cs) = pySplitF sep (cs.length + 1) (c :: cs) := rfl
  rw [e]
  simp only [pySplitF]
  rw [if_neg h]
  rfl

theorem pySplit_ne_nil (sep s : List Char) : pySplit sep s ≠ [] := by
  cases s with
  | nil => simp [pySplit_nil]
  | cons c cs =>
    by_cases h : sep ≠ [] ∧ sep.isPrefixOf (c :: cs)
    · rw [pySplit_cons_pos sep c cs h]; simp
    · rw [pySplit_cons_neg sep c cs h]; exact consHead_ne_nil c _

theorem pyReplaceAllF_mono (pat repl : List Char) :
    ∀ n m s, s.length ≤ n → s.length ≤ m →
      pyReplaceAllF pat repl n s = pyReplaceAllF pat repl m s := by
  intro n
  induction n with
  | zero =>
    intro m s hn _
    have : s = [] := List.eq_nil_of_length_eq_zero (Nat.le_zero.mp hn)
    subst this
    cases m <;> rfl
  | succ n ih =>
    intro m s hn hm
    cases s with
    | nil => cases m <;> rfl
    | cons c cs =>
      cases m with
      | zero => simp at hm
      | succ m =>
        simp only [pyReplaceAllF]
        by_cases h : pat ≠ [] ∧ pat.isPrefixOf (c :: cs)
        · rw [if_pos h, if_pos h]
          have hn2 : (cs.drop (pat.length - 1)).length ≤ n := by
            rw [List.length_drop]; simp only [List.length_cons] at hn; omega
          have hm2 : (cs.drop (pat.length - 1)).length ≤ m := by
            rw [List.length_drop]; simp only [List.length_cons] at hm; omega
          rw [ih _ _ hn2 hm2]
        · rw [if_neg h, if_neg h]
          have hn2 : cs.length ≤ n := by simp only [List.length_cons] at hn; omega
          have hm2 : cs.length ≤ m := by simp only [List.length_cons] at hm; omega
          rw [ih _ _ hn2 hm2]

theorem pyReplaceAllF_fuel (pat repl : List Char) (n : Nat) (s : List Char)
    (h : s.length ≤ n) : pyReplaceAllF pat repl n s = pyReplaceAll pat repl s :=
  pyReplaceAllF_mono pat repl n s.length s h (Nat.le_refl _)

theorem pyReplaceAll_nil (pat repl : List Char) : pyReplaceAll pat repl [] = [] := rfl

theorem pyReplaceAll_cons_pos (pat repl : List Char) (c : Char) (cs : List Char)
    (h : pat ≠ [] ∧ pat.isPrefixOf (c :: cs)) :
    pyReplaceAll pat repl (c :: cs) =
      repl ++ pyReplaceAll pat repl (cs.drop (pat.length - 1)) := by
  have e : pyReplaceAll pat repl (c :: cs) = pyReplaceAllF pat repl (cs.length + 1) (c :: cs) := rfl
  rw [e]
  simp only [pyReplaceAllF]
  rw [if_pos h]
  rw [pyReplaceAllF_fuel pat repl cs.length _ (by rw [List.length_drop]; omega)]

theorem pyReplaceAll_cons_neg (pat repl : List Char) (c : Char) (cs : List Char)
    (h : ¬(pat ≠ [] ∧ pat.isPrefixOf (c :: cs))) :
    pyReplaceAll pat repl (c :: cs) = c :: pyReplaceAll pat repl cs := by
  have e : pyReplaceAll pat repl (c :: cs) = pyReplaceAllF pat repl (cs.length + 1) (c :: cs) := rfl
  rw [e]
  simp only [pyReplaceAllF]
  rw [if_neg h]
  rfl

theorem countOccF_mono (pat : List Char) :
    ∀ n m s, s.length ≤ n → s.length ≤ m → countOccF pat n s = countOccF pat m s := by
  intro n
  induction n with
  | zero =>
    intro m s hn _
    have : s = [] := List.eq_nil_of_length_eq_zero (Nat.le_zero.mp hn)
    subst this
    cases m <;> rfl
  | succ n ih =>
    intro m s hn hm
    cases s with
    | nil => cases m <;> rfl
    | cons c cs =>
      cases m with
      | zero => simp at hm
      | succ m =>
        simp only [countOccF]
        by_cases h : pat ≠ [] ∧ pat.isPrefixOf (c :: cs)
        · rw [if_pos h, if_pos h]
          have hn2 : (cs.drop (pat.length - 1)).length ≤ n := by
            rw [List.length_drop]; simp only [List.length_cons] at hn; omega
          have hm2 : (cs.drop (pat.length - 1)).length ≤ m := by
            rw [List.length_drop]; simp only [List.length_cons] at hm; omega
          rw [ih _ _ hn2 hm2]
        · rw [if_neg h, if_neg h]
          have hn2 : cs.length ≤ n := by simp only [List.length_cons] at hn; omega
          have hm2 : cs.length ≤ m := by simp only [List.length_cons] at hm; omega
          rw [ih _ _ hn2 hm2]

theorem countOccF_fuel (pat : List Char) (n : Nat) (s : List Char) (h : s.length ≤ n) :
    countOccF pat n s = countOcc pat s :=
  countOccF_mono pat n s.length s h (Nat.le_refl _)

theorem countOcc_nil (pat : List Char) : countOcc pat [] = 0 := rfl

theorem countOcc_cons_pos (pat : List Char) (c : Char) (cs : List Char)
    (h : pat ≠ [] ∧ pat.isPrefixOf (c :: cs)) :
    countOcc pat (c :: cs) = 1 + countOcc pat (cs.drop (pat.length - 1)) := by
  have e : countOcc pat (c :: cs) = countOccF pat (cs.length + 1) (c :: cs) := rfl
  rw [e]
  simp only [countOccF]
  rw [if_pos h]
  rw [countOccF_fuel pat cs.length _ (by rw [List.length_drop]; omega)]

theorem countOcc_cons_neg (pat : List Char) (c : Char) (cs : List Char)
    (h : ¬(pat ≠ [] ∧ pat.isPrefixOf (c :: cs))) :
    countOcc pat (c :: cs) = countOcc pat cs := by
  have e : countOcc pat (c :: cs) = countOccF pat (cs.length + 1) (c :: cs) := rfl
  rw [e]
  simp only [countOccF]
  rw [if_neg h]
  rfl

theorem isPrefixOf_true_ex (p l : List Char) :
    p.isPrefixOf l = true ↔ ∃ t, l = p ++ t := by
  constructor
  · intro h
    obtain ⟨t, ht⟩ := List.isPrefixOf_iff_prefix.mp h
    exact ⟨t, ht.symm⟩
  · rintro ⟨t, rfl⟩
    exact List.isPrefixOf_iff_prefix.mpr ⟨t, rfl⟩

theorem isPrefixOf_append_self (p t : List Char) : p.isPrefixOf (p ++ t) = true :=
  (isPrefixOf_true_ex p (p ++ t)).mpr ⟨t, rfl⟩

theorem cleanBefore_shift (pat t : List Char) (c : Char) (cs : List Char)
    (h : cleanBefore pat (c :: cs) t) : cleanBefore pat cs t := by
  intro i hi
  have := h (i + 1) (by simp only [List.length_cons]; omega)
  simpa [List.drop_succ_cons] using this

theorem pySplit_of_clean (sep s : List Char) (_hsep : sep ≠ [])
    (h : cleanBefore sep s []) : pySplit sep s = [s] := by
  induction s with
  | nil => exact pySplit_nil sep
  | cons c cs ih =>
    have h0 : sep.isPrefixOf (c :: cs) = false := by
      have := h 0 (by simp only [List.length_cons]; omega)
      simpa using this
    rw [pySplit_cons_neg sep c cs (by rintro ⟨_, hp⟩; rw [h0] at hp; exact absurd hp (by simp))]
    rw [ih (cleanBefore_shift sep [] c cs h)]
    rfl

theorem pySplit_append_sep (sep A B : List Char) (hsep : sep ≠ [])
    (h : cleanBefore sep A (sep ++ B)) :
    pySplit sep (A ++ sep ++ B) = A :: pySplit sep B := by
  induction A with
  | nil =>
    simp only [List.nil_append]
    cases sep with
    | nil => exact absurd rfl hsep
    | cons p ps =>
      rw [show (p :: ps) ++ B = p :: (ps ++ B) from rfl]
      rw [pySplit_cons_pos (p :: ps) p (ps ++ B)
        ⟨hsep, by rw [show p :: (ps ++ B) = (p :: ps) ++ B from rfl]; exact isPrefixOf_append_self _ _⟩]
      congr 1
      have : ((p :: ps).length - 1) = ps.length := by simp
      rw [this, List.drop_left]
  | cons a A ih =>
    have h0 : sep.isPrefixOf (a :: (A ++ sep ++ B)) = false := by
      have := h 0 (by simp only [List.length_cons]; omega)
      simpa [List.append_assoc] using this
    rw [show (a :: A) ++ sep ++ B = a :: (A ++ sep ++ B) from by simp]
    rw [pySplit_cons_neg sep a (A ++ sep ++ B)
      (by rintro ⟨_, hp⟩; rw [h0] at hp; exact absurd hp (by simp))]
    rw [ih (cleanBefore_shift sep (sep ++ B) a A h)]
    rfl

theorem cleanBefore_nil_iff (pat s : List Char) (hp : pat ≠ []) :
    cleanBefore pat s [] ↔ ¬ (pat <:+: s) := by
  constructor
  · intro h hinf
    obtain ⟨u, v, huv⟩ := hinf
    have hul : u.length < s.length := by
      rw [← huv]
      simp only [List.length_append]
      have : 0 < pat.length := List.length_pos.mpr hp
      omega
    have hdrop : s.drop u.length = pat ++ v := by
      rw [← huv, List.append_assoc, List.drop_left]
    have := h u.length hul
    rw [hdrop, List.append_nil] at this
    rw [isPrefixOf_append_self] at this
    exact absurd this (by simp)
  · intro h i hi
    by_contra hc
    have hc2 : pat.isPrefixOf (s.drop i ++ []) = true := by
      cases hb : pat.isPrefixOf (s.drop i ++ []) with
      | false => exact absurd hb hc
      | true => rfl
    rw [List.append_nil] at hc2
    obtain ⟨t, ht⟩ := (isPrefixOf_true_ex _ _).mp hc2
    exact h ⟨s.take i, t, by rw [List.append_assoc, ← ht, List.take_append_drop]⟩

theorem consHead_length (c : Char) (ls : List (List Char)) (h : ls ≠ []) :
    (consHead c ls).length = ls.length := by
  cases ls with
  | nil => exact absurd rfl h
  | cons t ts => simp [consHead]

theorem two_le_split_length (sep : List Char) (hsep : sep ≠ []) :
    ∀ n s, s.length ≤ n → sep <:+: s → 2 ≤ (pySplit sep s).length := by
  intro n
  induction n with
  | zero =>
    intro s hn hinf
    have : s = [] := List.eq_nil_of_length_eq_zero (Nat.le_zero.mp hn)
    subst this
    obtain ⟨u, v, huv⟩ := hinf
    have := List.append_eq_nil.mp (List.append_eq_nil.mp huv).1
    exact absurd this.2 hsep
  | succ n ih =>
    intro s hn hinf
    cases s with
    | nil =>
      obtain ⟨u, v, huv⟩ := hinf
      have := List.append_eq_nil.mp (List.append_eq_nil.mp huv).1
      exact absurd this.2 hsep
    | cons c cs =>
      by_cases hm : sep.isPrefixOf (c :: cs)
      · rw [pySplit_cons_pos sep c cs ⟨hsep, hm⟩]
        have h1 := pySplit_ne_nil sep (cs.drop (sep.length - 1))
        have h2 := List.length_pos.mpr h1
        simp only [List.length_cons]
        omega
      · rw [pySplit_cons_neg sep c cs (by rintro ⟨_, hp⟩; exact hm hp)]
        obtain ⟨u, v, huv⟩ := hinf
        cases u with
        | nil =>
          simp only [List.nil_append] at huv
          exact absurd ((isPrefixOf_true_ex _ _).mpr ⟨v, huv.symm⟩) hm
        | cons x u =>
          have hx : u ++ sep ++ v = cs := by
            have hxc : x :: (u ++ sep ++ v) = c :: cs := by simpa using huv
            injection hxc
          have hscs : sep <:+: cs := ⟨u, v, hx⟩
          have := ih cs (by simp only [List.length_cons] at hn; omega) hscs
          rw [consHead_length c _ (pySplit_ne_nil sep cs)]
          exact this

theorem intercalate_single (sep x : List Char) : List.intercalate sep [x] = x := by
  simp [List.intercalate, List.intersperse]

theorem intercalate_cons2 (sep a b : List Char) (t : List (List Char)) :
    List.intercalate sep (a :: b :: t) = a ++ sep ++ List.intercalate sep (b :: t) := by
  simp [List.intercalate, List.intersperse, List.append_assoc]

theorem intercalate_consHead (sep : List Char) (c : Char) (ls : List (List Char))
    (h : ls ≠ []) :
    List.intercalate sep (consHead c ls) = c :: List.intercalate sep ls := by
  cases ls with
  | nil => exact absurd rfl h
  | cons t ts =>
    cases ts with
    | nil => simp [consHead, intercalate_single]
    | cons u us =>
      simp only [consHead]
      rw [intercalate_cons2, intercalate_cons2]
      simp

theorem intercalate_pySplit_aux (sep : List Char) (hsep : sep ≠ []) :
    ∀ n s, s.length ≤ n → List.intercalate sep (pySplit sep s) = s := by
  intro n
  induction n with
  | zero =>
    intro s hn
    have : s = [] := List.eq_nil_of_length_eq_zero (Nat.le_zero.mp hn)
    subst this
    rw [pySplit_nil, intercalate_single]
  | succ n ih =>
    intro s hn
    cases s with
    | nil => rw [pySplit_nil, intercalate_single]
    | cons c cs =>
      by_cases hm : sep.isPrefixOf (c :: cs)
      · rw [pySplit_cons_pos sep c cs ⟨hsep, hm⟩]
        obtain ⟨t, ht⟩ := (isPrefixOf_true_ex _ _).mp hm
        have hd : cs.drop (sep.length - 1) = t := by
          have h1 : 0 < sep.length := List.length_pos.mpr hsep
          have h2 : (c :: cs).drop sep.length = t := by rw [ht, List.drop_left]
          have h3 : (c :: cs).drop sep.length = cs.drop (sep.length - 1) := by
            cases hk : sep.length with
            | zero => omega
            | succ k => simp [List.drop_succ_cons]
          rw [← h3, h2]
        obtain ⟨w, ws, hw⟩ := List.exists_cons_of_ne_nil (pySplit_ne_nil sep (cs.drop (sep.length - 1)))
        rw [hw, intercalate_cons2, ← hw]
        rw [ih (cs.drop (sep.length - 1)) (by rw [List.length_drop]; simp only [List.length_cons] at hn; omega)]
        rw [hd, List.nil_append, ← ht]
      · rw [pySplit_cons_neg sep c cs (by rintro ⟨_, hp⟩; exact hm hp)]
        rw [intercalate_consHead sep c _ (pySplit_ne_nil sep cs)]
        rw [ih cs (by simp only [List.length_cons] at hn; omega)]

theorem intercalate_pySplit (sep s : List Char) (hsep : sep ≠ []) :
    List.intercalate sep (pySplit sep s) = s :=
  intercalate_pySplit_aux sep hsep s.length s (Nat.le_refl _)

theorem replaceAll_id_aux (pat repl : List Char) :
    ∀ n s, s.length ≤ n → countOcc pat s = 0 → pyReplaceAll pat repl s = s := by
  intro n
  induction n with
  | zero =>
    intro s hn _
    have : s = [] := List.eq_nil_of_length_eq_zero (Nat.le_zero.mp hn)
    subst this
    rfl
  | succ n ih =>
    intro s hn hc
    cases s with
    | nil => rfl
    | cons c cs =>
      by_cases h : pat ≠ [] ∧ pat.isPrefixOf (c :: cs)
      · rw [countOcc_cons_pos pat c cs h] at hc
        omega
      · rw [countOcc_cons_neg pat c cs h] at hc
        rw [pyReplaceAll_cons_neg pat repl c cs h]
        rw [ih cs (by simp only [List.length_cons] at hn; omega) hc]

theorem replaceAll_id_of_no_occ (pat repl s : List Char) (h : countOcc pat s = 0) :
    pyReplaceAll pat repl s = s :=
  replaceAll_id_aux pat repl s.length s (Nat.le_refl _) h

theorem replaceAll_strip_marker (pat A : List Char) (hp : pat ≠ [])
    (h : cleanBefore pat A pat) : pyReplaceAll pat [] (A ++ pat) = A := by
  induction A with
  | nil =>
    simp only [List.nil_append]
    cases pat with
    | nil => exact absurd rfl hp
    | cons p ps =>
      rw [pyReplaceAll_cons_pos (p :: ps) [] p ps
        ⟨hp, (isPrefixOf_true_ex _ _).mpr ⟨[], by simp⟩⟩]
      have : ((p :: ps).length - 1) = ps.length := by simp
      rw [this, List.drop_length]
      rfl
  | cons a A ih =>
    have h0 : pat.isPrefixOf (a :: (A ++ pat)) = false := by
      have := h 0 (by simp only [List.length_cons]; omega)
      simpa using this
    rw [show (a :: A) ++ pat = a :: (A ++ pat) from rfl]
    rw [pyReplaceAll_cons_neg pat [] a (A ++ pat)
      (by rintro ⟨_, hpp⟩; rw [h0] at hpp; exact absurd hpp (by simp))]
    rw [ih (cleanBefore_shift pat pat a A h)]

theorem replaceAll_eq_removeFirst_aux (pat : List Char) :
    ∀ n s, s.length ≤ n → countOcc pat s ≤ 1 →
      pyReplaceAll pat [] s = removeFirst pat s := by
  intro n
  induction n with
  | zero =>
    intro s hn _
    have : s = [] := List.eq_nil_of_length_eq_zero (Nat.le_zero.mp hn)
    subst this
    rfl
  | succ n ih =>
    intro s hn hc
    cases s with
    | nil => rfl
    | cons c cs =>
      by_cases h : pat ≠ [] ∧ pat.isPrefixOf (c :: cs)
      · rw [pyReplaceAll_cons_pos pat [] c cs h]
        rw [countOcc_cons_pos pat c cs h] at hc
        have hz : countOcc pat (cs.drop (pat.length - 1)) = 0 := by omega
        rw [replaceAll_id_of_no_occ pat [] _ hz]
        simp only [removeFirst]
        rw [if_pos h, List.nil_append]
      · rw [pyReplaceAll_cons_neg pat [] c cs h]
        rw [countOcc_cons_neg pat c cs h] at hc
        simp only [removeFirst]
        rw [if_neg h]
        rw [ih cs (by simp only [List.length_cons] at hn; omega) hc]

theorem replaceAll_eq_removeFirst (pat s : List Char) (h : countOcc pat s ≤ 1) :
    pyReplaceAll pat [] s = removeFirst pat s :=
  replaceAll_eq_removeFirst_aux pat s.length s (Nat.le_refl _) h

theorem cleanBefore_single (c : Char) (A t : List Char) (h : c ∉ A) :
    cleanBefore [c] A t := by
  intro i hi
  rw [List.drop_eq_getElem_cons hi, List.cons_append]
  have hne : c ≠ A[i] := fun he => h (he ▸ List.getElem_mem hi)
  simp [List.isPrefixOf, hne]

theorem mem_pySplit_single_aux (ch : Char) :
    ∀ n s, s.length ≤ n → ∀ k ∈ pySplit [ch] s, ch ∉ k := by
  intro n
  induction n with
  | zero =>
    intro s hn k hk
    have : s = [] := List.eq_nil_of_length_eq_zero (Nat.le_zero.mp hn)
    subst this
    rw [pySplit_nil] at hk
    simp at hk
    subst hk
    simp
  | succ n ih =>
    intro s hn k hk
    cases s with
    | nil =>
      rw [pySplit_nil] at hk
      simp at hk
      subst hk
      simp
    | cons c cs =>
      by_cases hm : ([ch]).isPrefixOf (c :: cs)
      · rw [pySplit_cons_pos [ch] c cs ⟨by simp, hm⟩] at hk
        simp only [List.length_singleton, Nat.sub_self, List.drop_zero] at hk
        rcases List.mem_cons.mp hk with h1 | h2
        · subst h1; simp
        · exact ih cs (by simp only [List.length_cons] at hn; omega) k h2
      · rw [pySplit_cons_neg [ch] c cs (by rintro ⟨_, hpp⟩; exact hm hpp)] at hk
        obtain ⟨t, ts, hts⟩ := List.exists_cons_of_ne_nil (pySplit_ne_nil [ch] cs)
        rw [hts] at hk
        simp only [consHead] at hk
        have hcne : ch ≠ c := by
          intro he
          subst he
          exact hm ((isPrefixOf_true_ex _ _).mpr ⟨cs, rfl⟩)
        rcases List.mem_cons.mp hk with h1 | h2
        · subst h1
          intro hmem
          rcases List.mem_cons.mp hmem with h3 | h4
          · exact hcne h3
          · exact ih cs (by simp only [List.length_cons] at hn; omega) t
              (by rw [hts]; simp) h4
        · exact ih cs (by simp only [List.length_cons] at hn; omega) k
            (by rw [hts]; simp [h2])

theorem mem_pySplit_single (ch : Char) (s k : List Char) (hk : k ∈ pySplit [ch] s) :
    ch ∉ k :=
  mem_pySplit_single_aux ch s.length s (Nat.le_refl _) k hk

theorem pySplit_join_append (ch : Char) (R : List Char) :
    ∀ ks : List (List Char), ks ≠ [] → (∀ k ∈ ks, ch ∉ k) →
      pySplit [ch] (List.intercalate [ch] ks ++ ([ch] ++ R)) = ks ++ pySplit [ch] R := by
  intro ks
  induction ks with
  | nil => intro h; exact absurd rfl h
  | cons k ks ih =>
    intro _ hmem
    cases ks with
    | nil =>
      rw [intercalate_single]
      have := pySplit_append_sep [ch] k R (by simp)
        (cleanBefore_single ch k ([ch] ++ R) (hmem k (by simp)))
      simpa [List.append_assoc] using this
    | cons k2 ks2 =>
      rw [intercalate_cons2]
      rw [show (k ++ [ch] ++ List.intercalate [ch] (k2 :: ks2)) ++ ([ch] ++ R) =
        k ++ [ch] ++ (List.intercalate [ch] (k2 :: ks2) ++ ([ch] ++ R)) from by
          simp [List.append_assoc]]
      have hstep := pySplit_append_sep [ch] k
        (List.intercalate [ch] (k2 :: ks2) ++ ([ch] ++ R)) (by simp)
        (cleanBefore_single ch k _ (hmem k (by simp)))
      rw [show k ++ [ch] ++ (List.intercalate [ch] (k2 :: ks2) ++ ([ch] ++ R)) =
        k ++ ([ch] ++ (List.intercalate [ch] (k2 :: ks2) ++ ([ch] ++ R))) from by
          simp [List.append_assoc]] at hstep ⊢
      rw [hstep]
      rw [ih (by simp) (fun x hx => hmem x (by simp [hx]))]
      simp

theorem dropWhile_append_pos (p : Char → Bool) (l t : List Char)
    (h : l.dropWhile p ≠ []) : (l ++ t).dropWhile p = l.dropWhile p ++ t := by
  induction l with
  | nil => exact absurd rfl h
  | cons c cs ih =>
    rw [List.cons_append, List.dropWhile_cons, List.dropWhile_cons]
    by_cases hp : p c
    · rw [if_pos hp, if_pos hp]
      rw [List.dropWhile_cons, if_pos hp] at h
      exact ih h
    · rw [if_neg hp, if_neg hp, List.cons_append]

theorem dropWhile_head_false (p : Char → Bool) :
    ∀ (l : List Char) (a : Char) (r : List Char), l.dropWhile p = a :: r → p a = false := by
  intro l
  induction l with
  | nil => intro a r h; simp at h
  | cons c cs ih =>
    intro a r h
    rw [List.dropWhile_cons] at h
    by_cases hp : p c
    · rw [if_pos hp] at h
      exact ih a r h
    · rw [if_neg hp] at h
      have : c = a := (List.cons.inj h).1
      subst this
      exact Bool.not_eq_true _ ▸ (by simpa using hp)

theorem dropWhile_idem (p : Char → Bool) (l : List Char) :
    (l.dropWhile p).dropWhile p = l.dropWhile p := by
  induction l with
  | nil => rfl
  | cons c cs ih =>
    rw [List.dropWhile_cons]
    by_cases hp : p c
    · rw [if_pos hp]; exact ih
    · rw [if_neg hp, List.dropWhile_cons, if_neg hp]

theorem dtw_snoc_space (X : List Char) (c : Char) (hc : isSpaceB c = true) :
    dropTrailingWs (X ++ [c]) = dropTrailingWs X := by
  unfold dropTrailingWs
  rw [List.reverse_append]
  simp only [List.reverse_singleton, List.singleton_append]
  rw [List.dropWhile_cons, if_pos hc]

theorem dtw_snoc_keep (X : List Char) (c : Char) (hc : isSpaceB c = false) :
    dropTrailingWs (X ++ [c]) = X ++ [c] := by
  unfold dropTrailingWs
  rw [List.reverse_append]
  simp only [List.reverse_singleton, List.singleton_append]
  rw [List.dropWhile_cons, if_neg (by simp [hc])]
  simp

theorem dtw_append (S T : List Char) (ht : dropTrailingWs T ≠ []) :
    dropTrailingWs (S ++ T) = S ++ dropTrailingWs T := by
  unfold dropTrailingWs at *
  rw [List.reverse_append]
  have hdw : T.reverse.dropWhile isSpaceB ≠ [] := by
    intro hz
    rw [hz] at ht
    simp at ht
  rw [dropWhile_append_pos isSpaceB T.reverse S.reverse hdw]
  rw [List.reverse_append, List.reverse_reverse]

theorem dropWhile_keep (S T : List Char) (a : Char) (r : List Char)
    (hS : S = a :: r) (hh : isSpaceB a = false) :
    (S ++ T).dropWhile isSpaceB = S ++ T := by
  subst hS
  rw [List.cons_append, List.dropWhile_cons, if_neg (by simp [hh])]

theorem strip_append (S T : List Char) (a : Char) (r : List Char)
    (hS : S = a :: r) (hh : isSpaceB a = false) (ht : dropTrailingWs T ≠ []) :
    pyStrip (S ++ T) = S ++ dropTrailingWs T := by
  unfold pyStrip
  rw [dropWhile_keep S T a r hS hh]
  exact dtw_append S T ht

theorem dtw_idem (X : List Char) :
    dropTrailingWs (dropTrailingWs X) = dropTrailingWs X := by
  unfold dropTrailingWs
  rw [List.reverse_reverse]
  rw [dropWhile_idem]

theorem dtw_pyStrip (F : List Char) : dropTrailingWs (pyStrip F) = pyStrip F := by
  unfold pyStrip
  exact dtw_idem _

theorem pyStrip_cons_head (F : List Char) (a : Char) (r : List Char)
    (h : pyStrip F = a :: r) : isSpaceB a = false := by
  unfold pyStrip dropTrailingWs at h
  set X := F.dropWhile isSpaceB with hX
  obtain ⟨u, hu⟩ := List.dropWhile_suffix (l := X.reverse) isSpaceB
  have hXd : X = (X.reverse.dropWhile isSpaceB).reverse ++ u.reverse := by
    have := congrArg List.reverse hu
    rw [List.reverse_append, List.reverse_reverse] at this
    exact this.symm
  rw [h] at hXd
  have hXhead : X = a :: (r ++ u.reverse) := by rw [hXd]; simp
  exact dropWhile_head_false isSpaceB F a (r ++ u.reverse) (by rw [← hX]; exact hXhead)

theorem dropWhile_stripped (r : List Char) (hr : pyStrip r = r) :
    r.dropWhile isSpaceB = r := by
  cases hrc : r with
  | nil => rfl
  | cons a t =>
    have hh : isSpaceB a = false := pyStrip_cons_head r a t (by rw [hr, hrc])
    rw [List.dropWhile_cons, if_neg (by simp [hh])]

theorem dtw_stripped (r : List Char) (hr : pyStrip r = r) :
    dropTrailingWs r = r := by
  have h1 : pyStrip r = dropTrailingWs r := by
    unfold pyStrip
    rw [dropWhile_stripped r hr]
  rw [← h1, hr]

theorem pyStrip_idem (F : List Char) : pyStrip (pyStrip F) = pyStrip F := by
  have h1 : (pyStrip F).dropWhile isSpaceB = pyStrip F := by
    cases hc : pyStrip F with
    | nil => rfl
    | cons a r =>
      rw [List.dropWhile_cons, if_neg (by simp [pyStrip_cons_head F a r hc])]
  show dropTrailingWs ((pyStrip F).dropWhile isSpaceB) = pyStrip F
  rw [h1, dtw_pyStrip]

theorem contains_iff_mem (xs : List (List Char)) (a : List Char) :
    xs.contains a = true ↔ a ∈ xs := by
  simp [List.contains]

theorem strip_within (F : List Char) : pyStrip F <:+: F := by
  obtain ⟨t, ht⟩ := List.dropWhile_suffix (l := F) isSpaceB
  obtain ⟨u, hu⟩ := List.dropWhile_suffix (l := (F.dropWhile isSpaceB).reverse) isSpaceB
  have hXd : F.dropWhile isSpaceB = pyStrip F ++ u.reverse := by
    have := congrArg List.reverse hu
    rw [List.reverse_append, List.reverse_reverse] at this
    exact this.symm
  exact ⟨t, u.reverse, by rw [List.append_assoc, ← hXd, ht]⟩

theorem countOcc_zero_of_clean_aux (pat : List Char) :
    ∀ n s, s.length ≤ n → cleanBefore pat s [] → countOcc pat s = 0 := by
  intro n
  induction n with
  | zero =>
    intro s hn _
    have : s = [] := List.eq_nil_of_length_eq_zero (Nat.le_zero.mp hn)
    subst this
    rfl
  | succ n ih =>
    intro s hn hc
    cases s with
    | nil => rfl
    | cons c cs =>
      by_cases h : pat ≠ [] ∧ pat.isPrefixOf (c :: cs)
      · have h0 := hc 0 (by simp only [List.length_cons]; omega)
        rw [List.drop_zero, List.append_nil] at h0
        rw [h0] at h
        exact absurd h.2 (by simp)
      · rw [countOcc_cons_neg pat c cs h]
        exact ih cs (by simp only [List.length_cons] at hn; omega)
          (cleanBefore_shift pat [] c cs hc)

theorem countOcc_zero_of_clean (pat s : List Char) (h : cleanBefore pat s []) :
    countOcc pat s = 0 :=
  countOcc_zero_of_clean_aux pat s.length s (Nat.le_refl _) h

theorem marker_ne_nil (model : List Char) : marker model ≠ [] := by
  simp [marker, callingHead]

theorem countOcc_zero_of_not_within (pat : List Char) (c : List Char)
    (hp : pat ≠ []) (h : ¬ (pat <:+: c)) : countOcc pat (pyStrip c) = 0 := by
  apply countOcc_zero_of_clean
  apply (cleanBefore_nil_iff pat (pyStrip c) hp).mpr
  intro hm
  exact h (List.IsInfix.trans hm (strip_within c))

theorem parseAlt_aux :
    ∀ (bs : List (List Char)) (i : Nat), (∀ b ∈ bs, pyStrip b ≠ []) →
      ∀ j (hj : j < ((parseBlocksFrom i bs).map Msg.role).length),
        ((parseBlocksFrom i bs).map Msg.role).get ⟨j, hj⟩ = roleAt (i + j) := by
  intro bs
  induction bs with
  | nil =>
    intro i _ j hj
    simp [parseBlocksFrom] at hj
  | cons b rest ih =>
    intro i h j hj
    have hb : pyStrip b ≠ [] := h b (by simp)
    have hbe : (pyStrip b).isEmpty = false := by
      cases hpb : pyStrip b with
      | nil => exact absurd hpb hb
      | cons x xs => rfl
    have heq : (parseBlocksFrom i (b :: rest)).map Msg.role =
        roleAt i :: (parseBlocksFrom (i + 1) rest).map Msg.role := by
      simp only [parseBlocksFrom]
      rw [if_neg (by simp [hbe])]
      simp
    rw [List.get_of_eq heq]
    cases j with
    | zero => simp
    | succ j =>
      have hj2 : j < ((parseBlocksFrom (i + 1) rest).map Msg.role).length := by
        have := (heq ▸ hj : j + 1 < (roleAt i :: (parseBlocksFrom (i + 1) rest).map Msg.role).length)
        simp only [List.length_cons] at this
        omega
      rw [List.get_cons_succ]
      rw [ih (i + 1) (fun x hx => h x (by simp [hx])) j hj2]
      congr 1
      omega

theorem insertPlaceholder_eq (model content : List Char) :
    insertPlaceholder model content =
      List.intercalate newline (keptLines content) ++ callingBlock model := rfl

theorem insert_id (model content : List Char)
    (hline : ∀ l ∈ pySplit newline (pyStrip content),
      controlMarkers.contains (pyStrip l) = false) :
    insertPlaceholder model content = pyStrip content ++ callingBlock model := by
  rw [insertPlaceholder_eq]
  have hf : keptLines content = pySplit newline (pyStrip content) := by
    unfold keptLines
    apply List.filter_eq_self.mpr
    intro l hl
    rw [hline l hl]
    rfl
  rw [hf, intercalate_pySplit newline _ (by simp [newline])]

theorem dtw_callingBlock (model : List Char) :
    dropTrailingWs (callingBlock model) = marker model := by
  unfold callingBlock
  rw [dtw_snoc_space (marker model) '\n' (by decide)]
  have h : marker model = (callingHead ++ model ++ ['.','.']) ++ ['.'] := by
    simp [marker, dots, List.append_assoc]
  rw [h, dtw_snoc_keep _ '.' (by decide), ← h]

theorem strip_marked (F model : List Char) (hne : pyStrip F ≠ []) :
    pyStrip (pyStrip F ++ callingBlock model) = pyStrip F ++ marker model := by
  obtain ⟨a, r, har⟩ := List.exists_cons_of_ne_nil hne
  rw [strip_append (pyStrip F) (callingBlock model) a r har
    (pyStrip_cons_head F a r har)
    (by rw [dtw_callingBlock]; exact marker_ne_nil model)]
  rw [dtw_callingBlock]

theorem strip_s_nn (F : List Char) (hne : pyStrip F ≠ []) :
    pyStrip (pyStrip F ++ ['\n','\n']) = pyStrip F := by
  obtain ⟨a, r, har⟩ := List.exists_cons_of_ne_nil hne
  show dropTrailingWs ((pyStrip F ++ ['\n','\n']).dropWhile isSpaceB) = pyStrip F
  rw [dropWhile_keep _ _ a r har (pyStrip_cons_head F a r har)]
  rw [show pyStrip F ++ ['\n','\n'] = (pyStrip F ++ ['\n']) ++ ['\n'] from by simp]
  rw [dtw_snoc_space _ '\n' (by decide), dtw_snoc_space _ '\n' (by decide), dtw_pyStrip]

theorem strip_mid_block (r : List Char) (hr : pyStrip r = r) (hne : r ≠ []) :
    pyStrip (['\n','\n'] ++ r ++ ['\n','\n']) = r := by
  obtain ⟨a, t, hat⟩ := List.exists_cons_of_ne_nil hne
  have hh : isSpaceB a = false := pyStrip_cons_head r a t (by rw [hr, hat])
  show dropTrailingWs ((['\n','\n'] ++ r ++ ['\n','\n']).dropWhile isSpaceB) = r
  have h1 : (['\n','\n'] ++ r ++ ['\n','\n']).dropWhile isSpaceB = r ++ ['\n','\n'] := by
    rw [show ['\n','\n'] ++ r ++ ['\n','\n'] = '\n' :: ('\n' :: (r ++ ['\n','\n'])) from by simp]
    rw [List.dropWhile_cons, if_pos (by decide), List.dropWhile_cons, if_pos (by decide)]
    exact dropWhile_keep r ['\n','\n'] a t hat hh
  rw [h1]
  rw [show r ++ ['\n','\n'] = (r ++ ['\n']) ++ ['\n'] from by simp]
  rw [dtw_snoc_space _ '\n' (by decide), dtw_snoc_space _ '\n' (by decide)]
  exact dtw_stripped r hr

theorem s_not_marker (F : List Char)
    (hline : ∀ l ∈ pySplit newline (pyStrip F),
      controlMarkers.contains (pyStrip l) = false) :
    controlMarkers.contains (pyStrip (pyStrip F)) = false := by
  rw [pyStrip_idem]
  by_cases hc : controlMarkers.contains (pyStrip F) = true
  · have hmem : pyStrip F ∈ controlMarkers := (contains_iff_mem _ _).mp hc
    have hall : ∀ m ∈ controlMarkers, pySplit newline m = [m] ∧ pyStrip m = m := by decide
    have hsingle := (hall (pyStrip F) hmem).1
    have := hline (pyStrip F) (by rw [hsingle]; simp)
    rw [pyStrip_idem] at this
    rw [this] at hc
    exact absurd hc (by simp)
  · exact Bool.not_eq_true _ ▸ (by simpa using hc)

theorem pySplit_newline_cons (T : List Char) :
    pySplit newline ('\n' :: T) = [] :: pySplit newline T := by
  rw [show newline = ['\n'] from rfl]
  rw [pySplit_cons_pos ['\n'] '\n' T ⟨by simp, (isPrefixOf_true_ex _ _).mpr ⟨T, rfl⟩⟩]
  simp

theorem dtw_errorBlock (e : List Char) :
    dropTrailingWs (errorBlock e) = errorBlockTrimmed e := by
  rw [show errorBlock e = ((errorHead ++ e ++ ['\n','\n','-','-','-']) ++ ['\n']) ++ ['\n']
    from by simp [errorBlock, blockSep, List.append_assoc]]
  rw [dtw_snoc_space _ '\n' (by decide), dtw_snoc_space _ '\n' (by decide)]
  rw [show errorHead ++ e ++ ['\n','\n','-','-','-'] =
    (errorHead ++ e ++ ['\n','\n','-','-']) ++ ['-'] from by simp [List.append_assoc]]
  rw [dtw_snoc_keep _ '-' (by decide)]
  simp [errorBlockTrimmed, List.append_assoc]

/-- Claim C1 counterexample: the input consisting of a delimiter followed
by the letter a contains a delimiter occurrence, yet parse returns a single
turn whose role is assistant, so the returned roles do not strictly
alternate starting at user.  The empty block at index 0 is dropped while
the role of the surviving block is still taken from its original odd index. -/
theorem parse_roles_start_assistant_cex :
    delim <:+: ['-','-','-','a'] ∧
    parse_markdown_file ['-','-','-','a'] = [Msg.mk Role.assistant ['a']] ∧
    ¬ alternatingFromUser ((parse_markdown_file ['-','-','-','a']).map Msg.role) := by
  refine ⟨⟨[], ['a'], rfl⟩, by decide, fun h => ?_⟩
  exact absurd (h 0 (by decide)) (by decide)

/-- Claim C1 (amended): for input text containing a delimiter occurrence,
each returned turn gets role user for an even original block index and
assistant for an odd one; therefore, when every block of the split is
nonempty after trimming (so that no block is dropped), the returned roles
strictly alternate starting at user. -/
theorem parse_roles_alternate_nonempty_blocks (content : List Char)
    (hdelim : delim <:+: content)
    (hblocks : ∀ b ∈ pySplit delim content, pyStrip b ≠ []) :
    alternatingFromUser ((parse_markdown_file content).map Msg.role) := by
  have hlen : 2 ≤ (pySplit delim content).length :=
    two_le_split_length delim (by simp [delim]) content.length content (Nat.le_refl _) hdelim
  have hne1 : ¬ (((pySplit delim content).length == 1) = true) := by
    simp only [beq_iff_eq]
    omega
  have heqp : parse_markdown_file content = parseBlocksFrom 0 (pySplit delim content) := by
    simp only [parse_markdown_file]
    rw [if_neg hne1]
  rw [heqp]
  intro j hj
  have := parseAlt_aux (pySplit delim content) 0 hblocks j hj
  simpa using this

/-- Witness for the amended claim C1 at a concrete two-block input. -/
theorem parse_roles_alternate_nonempty_blocks_witness :
    delim <:+: ['a','-','-','-','b'] ∧
    alternatingFromUser ((parse_markdown_file ['a','-','-','-','b']).map Msg.role) :=
  ⟨⟨['a'], ['b'], rfl⟩,
    parse_roles_alternate_nonempty_blocks ['a','-','-','-','b']
      ⟨['a'], ['b'], rfl⟩ (by decide)⟩

/-- Claim C3 counterexample: on a file containing the in-flight marker
twice, the success rewrite removes both occurrences (Python str.replace
replaces every occurrence), not exactly one: the result differs from
removing exactly the first occurrence and appending the framed block. -/
theorem resolveSuccess_double_marker_cex :
    countOcc (marker ['m']) (pyStrip (['A'] ++ marker ['m'] ++ marker ['m'])) = 2 ∧
    resolveSuccess ['m'] ['R'] (['A'] ++ marker ['m'] ++ marker ['m']) =
      ['A'] ++ responseBlock ['R'] ∧
    resolveSuccess ['m'] ['R'] (['A'] ++ marker ['m'] ++ marker ['m']) ≠
      removeFirst (marker ['m']) (pyStrip (['A'] ++ marker ['m'] ++ marker ['m'])) ++
        responseBlock ['R'] := by
  refine ⟨by decide, by decide, by decide⟩

/-- Claim C3 (amended): when the in-flight marker occurs at most once in
the stripped file content, the success rewrite removes exactly that
occurrence (if any) and appends a new trailing block containing the
response framed by the delimiter on both sides; when it occurs more than
once, every leftmost non-overlapping occurrence is removed in one pass. -/
theorem resolveSuccess_marker_at_most_once (model resp content : List Char)
    (h : countOcc (marker model) (pyStrip content) ≤ 1) :
    resolveSuccess model resp content =
      removeFirst (marker model) (pyStrip content) ++ responseBlock resp := by
  unfold resolveSuccess
  rw [replaceAll_eq_removeFirst _ _ h]

/-- Witness for the amended claim C3 at a content with one marker occurrence. -/
theorem resolveSuccess_marker_at_most_once_witness :
    countOcc (marker ['m']) (pyStrip (['A'] ++ marker ['m'])) ≤ 1 ∧
    resolveSuccess ['m'] ['R'] (['A'] ++ marker ['m']) =
      removeFirst (marker ['m']) (pyStrip (['A'] ++ marker ['m'])) ++ responseBlock ['R'] :=
  ⟨by decide, resolveSuccess_marker_at_most_once ['m'] ['R'] (['A'] ++ marker ['m']) (by decide)⟩

/-- Claim C5: when the file cannot be read, the driver aborts before the
placeholder insert: it returns null, performs zero rewrites, and the file
state is untouched. -/
theorem parse_failure_no_mutation :
    ∀ (modelArg : Option (List Char)) (send : List Msg → Except (List Char) (List Char)),
      process_markdown none modelArg send = DriverResult.mk none none 0 :=
  fun _ _ => rfl

/-- Claim C6: when the external client fails, the driver catches the
failure, rewrites the file through the failure-path resolve (whose output
ends with the framed error block for the stringified cause), and returns
null; being a total function of the collaborator outcome it never
propagates the failure to its caller. -/
theorem call_error_writes_error_block :
    ∀ (content : List Char) (modelArg : Option (List Char))
      (send : List Msg → Except (List Char) (List Char)) (e : List Char),
      send (filter_messages (parse_markdown_file content)) = Except.error e →
      process_markdown (some content) modelArg send =
        DriverResult.mk
          (some (resolveFailure (pmModel modelArg) e
            (insertPlaceholder (pmModel modelArg) content))) none 2 ∧
      ∃ pre, resolveFailure (pmModel modelArg) e
          (insertPlaceholder (pmModel modelArg) content) = pre ++ errorBlock e := by
  intro content modelArg send e h
  refine ⟨?_, ⟨_, rfl⟩⟩
  simp only [process_markdown]
  rw [h]

/-- Witness for claim C6 at a concrete file and failing client. -/
theorem call_error_writes_error_block_witness :
    process_markdown (some ['H','i']) none (fun _ => Except.error ['b','o','o','m']) =
      DriverResult.mk (some (resolveFailure (pmModel none) ['b','o','o','m']
        (insertPlaceholder (pmModel none) ['H','i']))) none 2 ∧
    ∃ pre, resolveFailure (pmModel none) ['b','o','o','m']
        (insertPlaceholder (pmModel none) ['H','i']) = pre ++ errorBlock ['b','o','o','m'] :=
  call_error_writes_error_block ['H','i'] none
    (fun _ => Except.error ['b','o','o','m']) ['b','o','o','m'] rfl

/-- Claim C7: an input with zero delimiter occurrences parses to exactly
one user turn whose content is the whole trimmed input; in particular the
empty input parses to one user turn with empty content. -/
theorem parse_no_delimiter_single_turn :
    (∀ content : List Char, ¬ (delim <:+: content) →
      parse_markdown_file content = [Msg.mk Role.user (pyStrip content)]) ∧
    parse_markdown_file [] = [Msg.mk Role.user []] := by
  constructor
  · intro content h
    have hc : cleanBefore delim content [] :=
      (cleanBefore_nil_iff delim content (by simp [delim])).mpr h
    have hs : pySplit delim content = [content] :=
      pySplit_of_clean delim content (by simp [delim]) hc
    simp only [parse_markdown_file]
    rw [hs]
    rfl
  · decide

/-- Witness for claim C7 at a concrete delimiter-free input. -/
theorem parse_no_delimiter_single_turn_witness :
    ¬ (delim <:+: ['H','e','l','l','o']) ∧
    parse_markdown_file ['H','e','l','l','o'] =
      [Msg.mk Role.user (pyStrip ['H','e','l','l','o'])] := by
  have hn : ¬ (delim <:+: ['H','e','l','l','o']) :=
    (cleanBefore_nil_iff delim ['H','e','l','l','o'] (by simp [delim])).mp (by decide)
  exact ⟨hn, parse_no_delimiter_single_turn.1 ['H','e','l','l','o'] hn⟩

/-- Claim C8: filter removes a turn exactly when its trimmed content is a
control-marker token, preserving the order of the surviving turns. -/
theorem filter_messages_marker_only :
    ∀ (msgs : List Msg) (m : Msg),
      (m ∈ filter_messages msgs ↔ m ∈ msgs ∧ pyStrip m.content ∉ controlMarkers) ∧
      List.Sublist (filter_messages msgs) msgs := by
  intro msgs m
  constructor
  · unfold filter_messages
    rw [List.mem_filter]
    constructor
    · rintro ⟨h1, h2⟩
      refine ⟨h1, fun hmem => ?_⟩
      rw [(contains_iff_mem _ _).mpr hmem] at h2
      simp at h2
    · rintro ⟨h1, h2⟩
      refine ⟨h1, ?_⟩
      have hf : controlMarkers.contains (pyStrip m.content) = false := by
        cases hb : controlMarkers.contains (pyStrip m.content) with
        | false => rfl
        | true => exact absurd ((contains_iff_mem _ _).mp hb) h2
      rw [hf]
      rfl
  · exact List.filter_sublist _

/-- Claim C2 counterexample: for the two-block file a---b, the success
rewrite followed by parse does not yield the pre-call turns plus one
assistant turn: the appended response block lands at an even block index
and is parsed with role user instead. -/
theorem roundtrip_success_cex :
    parse_markdown_file
        (resolveSuccess ['m'] ['H','i'] (insertPlaceholder ['m'] ['a','-','-','-','b'])) ≠
      filter_messages (parse_markdown_file ['a','-','-','-','b']) ++
        [Msg.mk Role.assistant ['H','i']] := by
  decide

/-- Claim C2 (amended): the round trip holds for a delimiter-free file
whose stripped content is nonempty and contains no control-marker line,
provided the in-flight marker does not occur inside the stripped content
(including overlapping its end), and the response is nonempty, already
stripped, and delimiter-free: then the success rewrite followed by parse
yields the pre-call post-filter turns plus exactly one assistant turn
carrying the response text. -/
theorem roundtrip_success_clean (F model resp : List Char)
    (hne : pyStrip F ≠ [])
    (hF : ¬ (delim <:+: F))
    (hline : ∀ l ∈ pySplit newline (pyStrip F),
      controlMarkers.contains (pyStrip l) = false)
    (hclean : cleanBefore (marker model) (pyStrip F) (marker model))
    (hr : pyStrip resp = resp) (hrne : resp ≠ [])
    (hd1 : cleanBefore delim (pyStrip F ++ ['\n','\n'])
      (delim ++ (['\n','\n'] ++ resp ++ ['\n','\n'] ++ (delim ++ ['\n','\n']))))
    (hd2 : cleanBefore delim (['\n','\n'] ++ resp ++ ['\n','\n']) (delim ++ ['\n','\n'])) :
    parse_markdown_file (resolveSuccess model resp (insertPlaceholder model F)) =
      filter_messages (parse_markdown_file F) ++ [Msg.mk Role.assistant resp] := by
  have h1 : insertPlaceholder model F = pyStrip F ++ callingBlock model :=
    insert_id model F hline
  have h2 : pyStrip (insertPlaceholder model F) = pyStrip F ++ marker model := by
    rw [h1]
    exact strip_marked F model hne
  have h3 : resolveSuccess model resp (insertPlaceholder model F) =
      pyStrip F ++ responseBlock resp := by
    unfold resolveSuccess
    rw [h2, replaceAll_strip_marker (marker model) (pyStrip F) (marker_ne_nil model) hclean]
  have e1 : pyStrip F ++ responseBlock resp =
      (pyStrip F ++ ['\n','\n']) ++ delim ++
        (['\n','\n'] ++ resp ++ ['\n','\n'] ++ (delim ++ ['\n','\n'])) := by
    simp [responseBlock, blockSep, delim, List.append_assoc]
  have hsplit : pySplit delim (pyStrip F ++ responseBlock resp) =
      [pyStrip F ++ ['\n','\n'], ['\n','\n'] ++ resp ++ ['\n','\n'], ['\n','\n']] := by
    rw [e1]
    rw [pySplit_append_sep delim _ _ (by simp [delim]) hd1]
    rw [show ['\n','\n'] ++ resp ++ ['\n','\n'] ++ (delim ++ ['\n','\n']) =
        (['\n','\n'] ++ resp ++ ['\n','\n']) ++ delim ++ ['\n','\n'] from by
      simp [List.append_assoc]]
    rw [pySplit_append_sep delim _ _ (by simp [delim]) hd2]
    rw [show pySplit delim ['\n','\n'] = [['\n','\n']] from by decide]
  have hb0 : pyStrip (pyStrip F ++ ['\n','\n']) = pyStrip F := strip_s_nn F hne
  have hb1 : pyStrip (['\n','\n'] ++ resp ++ ['\n','\n']) = resp :=
    strip_mid_block resp hr hrne
  have hstep : parse_markdown_file (pyStrip F ++ responseBlock resp) =
      parseBlocksFrom 0 [pyStrip F ++ ['\n','\n'],
        ['\n','\n'] ++ resp ++ ['\n','\n'], ['\n','\n']] := by
    simp only [parse_markdown_file]
    rw [hsplit]
    rfl
  have hE0 : (pyStrip (pyStrip F ++ ['\n','\n'])).isEmpty = false := by
    rw [hb0]
    obtain ⟨a, r, har⟩ := List.exists_cons_of_ne_nil hne
    rw [har]
    rfl
  have hE1c : pyStrip ('\n' :: '\n' :: (resp ++ ['\n','\n'])) = resp := by
    simpa using hb1
  have hpb : parseBlocksFrom 0 [pyStrip F ++ ['\n','\n'],
      ['\n','\n'] ++ resp ++ ['\n','\n'], ['\n','\n']] =
      [Msg.mk Role.user (pyStrip F), Msg.mk Role.assistant resp] := by
    simp only [parseBlocksFrom]
    rw [if_neg (by simp [hE0]), if_neg (by simp [hE1c, hrne]), if_pos (by decide)]
    rw [hb0, hb1]
    rfl
  have hcF : cleanBefore delim F [] :=
    (cleanBefore_nil_iff delim F (by simp [delim])).mpr hF
  have hsF : pySplit delim F = [F] := pySplit_of_clean delim F (by simp [delim]) hcF
  have hparseF : parse_markdown_file F = [Msg.mk Role.user (pyStrip F)] := by
    simp only [parse_markdown_file]
    rw [hsF]
    rfl
  have hnotm := s_not_marker F hline
  have hnm2 : pyStrip (pyStrip F) ∉ controlMarkers := by
    intro hm
    rw [(contains_iff_mem _ _).mpr hm] at hnotm
    exact absurd hnotm (by simp)
  have hfilter : filter_messages [Msg.mk Role.user (pyStrip F)] =
      [Msg.mk Role.user (pyStrip F)] := by
    simp [filter_messages, List.filter_cons, hnm2]
  rw [h3, hstep, hpb, hparseF, hfilter]
  rfl

/-- Witness for the amended claim C2 at a concrete delimiter-free file. -/
theorem roundtrip_success_clean_witness :
    parse_markdown_file (resolveSuccess ['m'] ['Y','o'] (insertPlaceholder ['m'] ['H','i'])) =
      filter_messages (parse_markdown_file ['H','i']) ++ [Msg.mk Role.assistant ['Y','o']] :=
  roundtrip_success_clean ['H','i'] ['m'] ['Y','o']
    (by decide)
    ((cleanBefore_nil_iff delim ['H','i'] (by simp [delim])).mp (by decide))
    (by decide) (by decide) (by decide) (by decide) (by decide) (by decide)

/-- Claim C4: when the in-flight marker is absent from the file content,
both resolve rewrites leave the stripped content intact and still append
their framed block, and running the failure rewrite twice with no
intervening insert appends two error blocks without corrupting or
truncating the earlier content. -/
theorem resolve_marker_absent_safe (model c e1 e2 r : List Char)
    (habs : ¬ (marker model <:+: c)) :
    resolveSuccess model r c = pyStrip c ++ responseBlock r ∧
    resolveFailure model e1 c = pyStrip c ++ errorBlock e1 ∧
    (pyStrip c ≠ [] →
      ¬ (marker model <:+: (pyStrip c ++ errorBlockTrimmed e1)) →
      resolveFailure model e2 (resolveFailure model e1 c) =
        pyStrip c ++ errorBlockTrimmed e1 ++ errorBlock e2) := by
  have hz : countOcc (marker model) (pyStrip c) = 0 :=
    countOcc_zero_of_not_within (marker model) c (marker_ne_nil model) habs
  have hra : pyReplaceAll (marker model) [] (pyStrip c) = pyStrip c :=
    replaceAll_id_of_no_occ _ _ _ hz
  refine ⟨by unfold resolveSuccess; rw [hra],
    by unfold resolveFailure; rw [hra], ?_⟩
  intro hne habs2
  have s1 : resolveFailure model e1 c = pyStrip c ++ errorBlock e1 := by
    unfold resolveFailure
    rw [hra]
  rw [s1]
  have hstrip : pyStrip (pyStrip c ++ errorBlock e1) =
      pyStrip c ++ errorBlockTrimmed e1 := by
    obtain ⟨a, r0, har⟩ := List.exists_cons_of_ne_nil hne
    rw [strip_append (pyStrip c) (errorBlock e1) a r0 har (pyStrip_cons_head c a r0 har)
      (by rw [dtw_errorBlock]; simp [errorBlockTrimmed, errorHead])]
    rw [dtw_errorBlock]
  unfold resolveFailure
  rw [hstrip]
  have hz2 : countOcc (marker model) (pyStrip c ++ errorBlockTrimmed e1) = 0 := by
    apply countOcc_zero_of_clean
    exact (cleanBefore_nil_iff _ _ (marker_ne_nil model)).mpr habs2
  rw [replaceAll_id_of_no_occ _ _ _ hz2]

/-- Claim C9 counterexample: with correct arguments and an external call
that succeeds with the empty-string response, the response block is
written into the file (two rewrites, trailing framed empty block), yet
main prints no success line: Python truthiness treats the empty string
as false. -/
theorem main_empty_response_cex :
    mainRun [['p'],['f']] (some ['H','e','l','l','o']) (fun _ => Except.ok []) =
      MainOut.mk none false true (some (['H','e','l','l','o'] ++ responseBlock [])) 2 := by
  decide

/-- Claim C9 (amended): a wrong argument count exits with status one
before any file access, and the success line is printed exactly when the
run wrote a nonempty response: the file was readable and the external
call returned a nonempty string.  An error is logged otherwise. -/
theorem main_success_print_iff :
    (∀ (argv : List (List Char)) (file : Option (List Char))
      (send : List Msg → Except (List Char) (List Char)),
      (argv.length < 2 ∨ 3 < argv.length) →
      mainRun argv file send = MainOut.mk (some 1) false true file 0) ∧
    (∀ (argv : List (List Char)) (file : Option (List Char))
      (send : List Msg → Except (List Char) (List Char)),
      ¬ (argv.length < 2 ∨ 3 < argv.length) →
      ((mainRun argv file send).printedSuccess = true ↔
        ∃ c r, file = some c ∧
          send (filter_messages (parse_markdown_file c)) = Except.ok r ∧ r ≠ [])) := by
  constructor
  · intro argv file send h
    simp only [mainRun]
    rw [if_pos h]
  · intro argv file send h
    have hps : (mainRun argv file send).printedSuccess =
        truthy (process_markdown file
          (if argv.length == 3 then some (argv.getD 2 []) else none) send).ret := by
      simp only [mainRun]
      rw [if_neg h]
    rw [hps]
    cases file with
    | none =>
      simp [process_markdown, truthy]
    | some content =>
      cases hsend : send (filter_messages (parse_markdown_file content)) with
      | ok resp =>
        have hret : (process_markdown (some content)
            (if argv.length == 3 then some (argv.getD 2 []) else none) send).ret =
            some resp := by
          simp only [process_markdown]
          rw [hsend]
        rw [hret]
        constructor
        · intro hres
          refine ⟨content, resp, rfl, hsend, fun hresp => ?_⟩
          subst hresp
          simp [truthy] at hres
        · rintro ⟨c2, r2, hc2, hr2, hrne2⟩
          have hc3 : content = c2 := by injection hc2
          subst hc3
          rw [hsend] at hr2
          have hr3 : resp = r2 := by injection hr2
          subst hr3
          obtain ⟨a, r0, har⟩ := List.exists_cons_of_ne_nil hrne2
          rw [har]
          rfl
      | error e =>
        have hret : (process_markdown (some content)
            (if argv.length == 3 then some (argv.getD 2 []) else none) send).ret =
            none := by
          simp only [process_markdown]
          rw [hsend]
        rw [hret]
        constructor
        · intro hres
          exact absurd hres (by simp [truthy])
        · rintro ⟨c2, r2, hc2, hr2, _⟩
          have hc3 : content = c2 := by injection hc2
          subst hc3
          rw [hsend] at hr2
          exact absurd hr2 (by simp)

/-- Witness for the amended claim C9: the argument-error branch at one
argument, and the success-print equivalence at a concrete successful run. -/
theorem main_success_print_iff_witness :
    mainRun [['p']] (some ['H','i']) (fun _ => Except.ok ['Y']) =
      MainOut.mk (some 1) false true (some ['H','i']) 0 ∧
    ((mainRun [['p'],['f']] (some ['H','i']) (fun _ => Except.ok ['Y'])).printedSuccess = true ↔
      ∃ c r, (some ['H','i'] : Option (List Char)) = some c ∧
        (Except.ok ['Y'] : Except (List Char) (List Char)) = Except.ok r ∧ r ≠ []) :=
  ⟨main_success_print_iff.1 [['p']] (some ['H','i']) (fun _ => Except.ok ['Y']) (by decide),
   main_success_print_iff.2 [['p'],['f']] (some ['H','i']) (fun _ => Except.ok ['Y']) (by decide)⟩

theorem pySplit_callTail (model : List Char) (hnm : ('\n') ∉ model) :
    pySplit newline
        (['\n','-','-','-','\n','\n','C','a','l','l','i','n','g',' '] ++ model ++
          (dots ++ ['\n'])) =
      [[], delim, [], callingLine model, []] := by
  have hnl : ('\n') ∉ callingLine model := by
    intro hmem
    unfold callingLine at hmem
    rcases List.mem_append.mp hmem with h1 | h2
    · rcases List.mem_append.mp h1 with h3 | h4
      · exact absurd h3 (by decide)
      · exact hnm h4
    · exact absurd h2 (by decide)
  rw [show ['\n','-','-','-','\n','\n','C','a','l','l','i','n','g',' '] ++ model ++
      (dots ++ ['\n']) =
      '\n' :: (delim ++ newline ++ ('\n' :: (callingLine model ++ newline ++ []))) from by
    simp [delim, callingLine, dots, List.append_assoc]]
  rw [pySplit_newline_cons]
  rw [pySplit_append_sep newline delim _ (by simp)
    (cleanBefore_single '\n' delim _ (by decide))]
  rw [pySplit_newline_cons]
  rw [pySplit_append_sep newline (callingLine model) [] (by simp)
    (cleanBefore_single '\n' (callingLine model) _ hnl)]
  rfl

/-- Claim C10: the insert rewrite preserves, in order and unchanged,
exactly those lines of the whole-stripped content whose trimmed content is
not a control marker, and appends the placeholder block as the new
trailing segment; the line structure of the rewritten file is the kept
lines followed by the placeholder block lines. -/
theorem insert_preserves_nonmarker_lines (content model : List Char)
    (hnm : ('\n') ∉ model) :
    pySplit newline (insertPlaceholder model content) =
      (if (keptLines content).isEmpty then [[]] else keptLines content) ++
        [[], delim, [], callingLine model, []] := by
  have htail := pySplit_callTail model hnm
  have hcbshape : callingBlock model =
      ['\n'] ++ (['\n','-','-','-','\n','\n','C','a','l','l','i','n','g',' '] ++ model ++
        (dots ++ ['\n'])) := by
    simp [callingBlock, marker, callingHead, List.append_assoc]
  rw [insertPlaceholder_eq]
  by_cases hk : keptLines content = []
  · rw [hk]
    rw [show List.intercalate newline ([] : List (List Char)) = [] from rfl]
    rw [List.nil_append, hcbshape]
    rw [show (['\n'] ++ (['\n','-','-','-','\n','\n','C','a','l','l','i','n','g',' '] ++
        model ++ (dots ++ ['\n']))) =
        '\n' :: (['\n','-','-','-','\n','\n','C','a','l','l','i','n','g',' '] ++ model ++
          (dots ++ ['\n'])) from rfl]
    rw [pySplit_newline_cons, htail]
    rfl
  · have hmem : ∀ k ∈ keptLines content, ('\n') ∉ k := by
      intro k hkm
      have hk2 : k ∈ pySplit newline (pyStrip content) := List.mem_of_mem_filter hkm
      exact mem_pySplit_single '\n' (pyStrip content) k hk2
    rw [hcbshape]
    rw [show List.intercalate newline (keptLines content) ++
        (['\n'] ++ (['\n','-','-','-','\n','\n','C','a','l','l','i','n','g',' '] ++ model ++
          (dots ++ ['\n']))) =
        List.intercalate ['\n'] (keptLines content) ++
        (['\n'] ++ (['\n','-','-','-','\n','\n','C','a','l','l','i','n','g',' '] ++ model ++
          (dots ++ ['\n']))) from rfl]
    rw [pySplit_join_append '\n' _ (keptLines content) hk hmem]
    rw [htail]
    obtain ⟨k0, ks0, hks⟩ := List.exists_cons_of_ne_nil hk
    rw [if_neg (by rw [hks]; simp)]

/-- Witness for claim C10 at a file with one marker line and one kept line. -/
theorem insert_preserves_nonmarker_lines_witness :
    ('\n') ∉ (['m'] : List Char) ∧
    pySplit newline (insertPlaceholder ['m'] ['c','c','\n','H','i']) =
      (if (keptLines ['c','c','\n','H','i']).isEmpty then [[]]
        else keptLines ['c','c','\n','H','i']) ++
        [[], delim, [], callingLine ['m'], []] :=
  ⟨by decide, insert_preserves_nonmarker_lines ['c','c','\n','H','i'] ['m'] (by decide)⟩

/-- Witness for claim C4 at a concrete marker-free file. -/
theorem resolve_marker_absent_safe_witness :
    resolveSuccess ['m'] ['R'] ['H','i'] = pyStrip ['H','i'] ++ responseBlock ['R'] ∧
    resolveFailure ['m'] ['e'] ['H','i'] = pyStrip ['H','i'] ++ errorBlock ['e'] ∧
    resolveFailure ['m'] ['f'] (resolveFailure ['m'] ['e'] ['H','i']) =
      pyStrip ['H','i'] ++ errorBlockTrimmed ['e'] ++ errorBlock ['f'] := by
  have h := resolve_marker_absent_safe ['m'] ['H','i'] ['e'] ['f'] ['R']
    ((cleanBefore_nil_iff (marker ['m']) ['H','i'] (marker_ne_nil ['m'])).mp (by decide))
  exact ⟨h.1, h.2.1, h.2.2 (by decide)
    ((cleanBefore_nil_iff (marker ['m'])
      (pyStrip ['H','i'] ++ errorBlockTrimmed ['e']) (marker_ne_nil ['m'])).mp (by decide))⟩

end NoteChat
